import Mathlib

set_option maxRecDepth 1000000
set_option maxHeartbeats 1000000

/-!
Verification of the feed-list editor script (`_update_feeds.py`).

The script reads a TypeScript source file, locates a region bounded by a
start-marker comment, an end-marker URL literal and the closing delimiter
"}," that follows it, prints the located region, splices a fixed
replacement block in its place and writes the result back to the same
path.  We embed the script shallowly: the file content is a `List Char`,
Python's `str.index` becomes `find`, the console and file effects become
an explicit event trace.
-/

namespace UpdateFeeds

/-- The literal target path (`filepath` in the script). -/
def filepath : List Char := "src/services/news.service.ts".toList

/-- Start marker (`old_start` in the script). -/
def old_start : List Char := "  // Human Side of Tech & Leadership".toList

/-- End marker (`old_end_marker` in the script). -/
def old_end_marker : List Char :=
  "url: \"https://lilianweng.github.io/index.xml\",".toList

/-- The closing delimiter searched for after the end marker. -/
def closingDelim : List Char := "\x7d,".toList

/-- The fixed replacement block (`new_section` in the script), built by the
same sequence of string concatenations. -/
def new_section : List Char := String.toList <|
  "  // Cloud & Infrastructure Engineering\n" ++
  "  \x7b\n" ++
  "    name: \"Cloudflare Blog\",\n" ++
  "    url: \"https://blog.cloudflare.com/rss/\",\n" ++
  "  \x7d,\n" ++
  "  // Human Side of Tech & Leadership\n" ++
  "  \x7b\n" ++
  "    name: \"The Engineering Manager\",\n" ++
  "    url: \"https://theengineeringmanager.com/feed/\",\n" ++
  "  \x7d,\n" ++
  "  \x7b name: \"Rands in Repose\", url: \"https://randsinrepose.com/feed/\" \x7d,\n" ++
  "  \x7b\n" ++
  "    name: \"Irrational Exuberance (Will Larson)\",\n" ++
  "    url: \"https://lethain.com/feeds.xml\",\n" ++
  "  \x7d,\n" ++
  "  \x7b name: \"LeadDev\", url: \"https://leaddev.com/feed\" \x7d,\n" ++
  "  \x7b name: \"StaffEng\", url: \"https://staffeng.com/rss\" \x7d,\n" ++
  "  \x7b\n" ++
  "    name: \"Charity Majors (CTO Craft)\",\n" ++
  "    url: \"https://charity.wtf/feed/\",\n" ++
  "  \x7d,\n" ++
  "  // Substack & Independent - Architecture & Leadership\n" ++
  "  \x7b\n" ++
  "    name: \"The Pragmatic Engineer\",\n" ++
  "    url: \"https://newsletter.pragmaticengineer.com/feed\",\n" ++
  "  \x7d,\n" ++
  "  \x7b name: \"ByteByteGo System Design\", url: \"https://blog.bytebytego.com/feed\" \x7d,\n" ++
  "  \x7b name: \"Refactoring (Luca Rossi)\", url: \"https://refactoring.fm/feed\" \x7d,\n" ++
  "  \x7b\n" ++
  "    name: \"Tidy First? (Kent Beck)\",\n" ++
  "    url: \"https://tidyfirst.substack.com/feed\",\n" ++
  "  \x7d,\n" ++
  "  \x7b\n" ++
  "    name: \"The Beautiful Mess (John Cutler)\",\n" ++
  "    url: \"https://cutlefish.substack.com/feed\",\n" ++
  "  \x7d,\n" ++
  "  \x7b name: \"Martin Fowler\", url: \"https://martinfowler.com/feed.atom\" \x7d,\n" ++
  "  \x7b name: \"LangChain Blog\", url: \"https://blog.langchain.dev/rss/\" \x7d,\n" ++
  "  // System Design & Architecture\n" ++
  "  \x7b\n" ++
  "    name: \"High Scalability\",\n" ++
  "    url: \"https://highscalability.com/feed/\",\n" ++
  "  \x7d,\n" ++
  "  \x7b\n" ++
  "    name: \"InfoQ\",\n" ++
  "    url: \"https://feed.infoq.com/\",\n" ++
  "  \x7d,\n" ++
  "  \x7b\n" ++
  "    name: \"The New Stack\",\n" ++
  "    url: \"https://thenewstack.io/feed/\",\n" ++
  "  \x7d,\n" ++
  "  \x7b\n" ++
  "    name: \"Architecture Notes\",\n" ++
  "    url: \"https://architecturenotes.co/rss/\",\n" ++
  "  \x7d,\n" ++
  "  // AI Agents, LLMs & Research\n" ++
  "  \x7b name: \"Google Research\", url: \"https://research.google/blog/rss\" \x7d,\n" ++
  "  \x7b name: \"Hugging Face\", url: \"https://huggingface.co/blog/feed.xml\" \x7d,\n" ++
  "  \x7b\n" ++
  "    name: \"BAIR (Berkeley AI)\",\n" ++
  "    url: \"https://bair.berkeley.edu/blog/feed.xml\",\n" ++
  "  \x7d,\n" ++
  "  \x7b\n" ++
  "    name: \"Lil\x27Log (Lilian Weng)\",\n" ++
  "    url: \"https://lilianweng.github.io/index.xml\",\n" ++
  "  \x7d,\n" ++
  "  \x7b\n" ++
  "    name: \"Anthropic Research\",\n" ++
  "    url: \"https://www.anthropic.com/research/rss.xml\",\n" ++
  "  \x7d,\n" ++
  "  \x7b\n" ++
  "    name: \"DeepMind Blog\",\n" ++
  "    url: \"https://deepmind.google/blog/rss.xml\",\n" ++
  "  \x7d,\n" ++
  "  \x7b\n" ++
  "    name: \"Meta AI Blog\",\n" ++
  "    url: \"https://ai.meta.com/blog/rss/\",\n" ++
  "  \x7d,\n" ++
  "  \x7b\n" ++
  "    name: \"AI Snake Oil\",\n" ++
  "    url: \"https://www.aisnakeoil.com/feed\",\n" ++
  "  \x7d,\n" ++
  "  \x7b\n" ++
  "    name: \"Simon Willison\x27s Weblog\",\n" ++
  "    url: \"https://simonwillison.net/atom/everything/\",\n" ++
  "  \x7d,"

/-- First index (counting from the head of `l`) at which `pat` occurs as a
prefix of the remaining list; `none` when there is no occurrence.  This is
Python's `str.find` restricted to the searched suffix. -/
def findSub (pat : List Char) : List Char → Option Nat
  | [] => if pat.isEmpty then some 0 else none
  | c :: rest =>
    if pat.isPrefixOf (c :: rest) then some 0
    else (findSub pat rest).map (· + 1)

/-- Python's `content.index(pat, start)`: the least absolute index `≥ start`
at which `pat` occurs, `none` (a `ValueError` in Python) when absent. -/
def find (pat content : List Char) (start : Nat) : Option Nat :=
  (findSub pat (content.drop start)).map (· + start)

/-- `pat` occurs in `l` at absolute index `i`. -/
def occursAt (pat l : List Char) (i : Nat) : Bool :=
  pat.isPrefixOf (l.drop i)

/-- The pure core of the script: locate the region and build
`(old_section, new content)`; `none` models an uncaught `ValueError` from
any of the three `index` calls. -/
def runEditor (content : List Char) : Option (List Char × List Char) :=
  match find old_start content 0 with
  | none => none
  | some start_idx =>
    match find old_end_marker content start_idx with
    | none => none
    | some end_search_start =>
      match find closingDelim content end_search_start with
      | none => none
      | some closing =>
        let end_idx := closing + closingDelim.length
        let old_section := (content.drop start_idx).take (end_idx - start_idx)
        some (old_section,
              content.take start_idx ++ new_section ++ content.drop end_idx)

/-- Observable effects of a run: console lines and file writes. -/
inductive Event where
  | printLine : List Char → Event
  | fileWrite : List Char → List Char → Event
deriving DecidableEq

/-- Banner printed before the old section. -/
def bannerOld : List Char := "=== OLD SECTION ===".toList

/-- Banner printed after the old section. -/
def bannerEnd : List Char := "=== END OLD ===".toList

/-- Final success message. -/
def doneMsg : List Char := "Done! Feeds updated successfully.".toList

/-- The event trace of a run on the given file content.  A lookup failure
raises before anything is printed or written, so the trace is empty. -/
def runEvents (content : List Char) : List Event :=
  match runEditor content with
  | none => []
  | some (oldSec, newContent) =>
    [Event.printLine bannerOld, Event.printLine oldSec,
     Event.printLine bannerEnd,
     Event.fileWrite filepath newContent,
     Event.printLine doneMsg]

/-- The whole program, given the process argument vector and environment:
the script consults neither, so the trace depends only on the file
content. -/
def runProgram (_argv : List (List Char))
    (_env : List (List Char × List Char)) (content : List Char) :
    List Event :=
  runEvents content

/-- Every `fileWrite` event in the trace targets `path`. -/
def writesOnlyTo (path : List Char) (evs : List Event) : Bool :=
  evs.all fun ev =>
    match ev with
    | Event.fileWrite p _ => p == path
    | _ => true

/-- The run together with its filesystem interactions: `readRes` is the
outcome of opening and reading the target file (`none` = an I/O error was
raised, aborting before anything happens), `writeOk` tells whether the
final write call itself succeeds (when it fails, the run aborts before
the closing success message is printed). -/
def runFs (readRes : Option (List Char)) (writeOk : Bool) : List Event :=
  match readRes with
  | none => []
  | some content =>
    match runEditor content with
    | none => []
    | some (oldSec, newContent) =>
      let pre := [Event.printLine bannerOld, Event.printLine oldSec,
                  Event.printLine bannerEnd,
                  Event.fileWrite filepath newContent]
      if writeOk then pre ++ [Event.printLine doneMsg] else pre

/-- A small sample file content holding the three anchors in locator
order: `"AB" ++ old_start ++ "MID" ++ old_end_marker ++ " \x7d," ++ "TAIL"`. -/
def cex : List Char :=
  ("AB  // Human Side of Tech & LeadershipMID" ++
   "url: \"https://lilianweng.github.io/index.xml\", \x7d,TAIL").toList

/-- The old section the run extracts from `cex` (indices 2 to 90). -/
def cexOld : List Char := (cex.drop 2).take 88

/-- The file content a successful run on `cex` writes back. -/
def cex1 : List Char := cex.take 2 ++ new_section ++ cex.drop 90

/-- The sample source text of the spec scenario: it contains the start
marker but lacks the end-marker literal. -/
def specContent : List Char :=
  ("A\n  // Human Side of Tech & Leadership\n" ++
   "  \x7b name: X, url: \"...\" \x7d,\n  \x7b other \x7d,\n").toList

theorem closingDelim_length : closingDelim.length = 2 := rfl

theorem findSub_sound (pat : List Char) :
    ∀ (l : List Char) (n : Nat), findSub pat l = some n →
      pat.isPrefixOf (l.drop n) = true := by
  intro l
  induction l with
  | nil =>
    intro n h
    simp only [findSub] at h
    split at h
    next hemp =>
      cases h
      rw [List.drop_nil, List.isEmpty_iff.mp hemp]
      rfl
    next => cases h
  | cons c rest ih =>
    intro n h
    simp only [findSub] at h
    split at h
    next hp =>
      cases h
      rwa [List.drop_zero]
    next hp =>
      rcases Option.map_eq_some'.mp h with ⟨m, hm, rfl⟩
      rw [List.drop_succ_cons]
      exact ih m hm

theorem findSub_minimal (pat : List Char) :
    ∀ (l : List Char) (n : Nat), findSub pat l = some n →
      ∀ m, m < n → pat.isPrefixOf (l.drop m) = false := by
  intro l
  induction l with
  | nil =>
    intro n h m hm
    simp only [findSub] at h
    split at h
    · cases h; omega
    · cases h
  | cons c rest ih =>
    intro n h m hm
    simp only [findSub] at h
    split at h
    · cases h; omega
    next hp =>
      rcases Option.map_eq_some'.mp h with ⟨k, hk, rfl⟩
      match m with
      | 0 =>
        rw [List.drop_zero]
        exact Bool.eq_false_iff.mpr hp
      | m + 1 =>
        rw [List.drop_succ_cons]
        exact ih k hk m (by omega)

theorem findSub_complete (pat : List Char) :
    ∀ (l : List Char) (i : Nat), pat.isPrefixOf (l.drop i) = true →
      ∃ n, n ≤ i ∧ findSub pat l = some n := by
  intro l
  induction l with
  | nil =>
    intro i h
    simp only [List.drop_nil] at h
    have hpat : pat = [] := by
      cases pat with
      | nil => rfl
      | cons a as => simp [List.isPrefixOf] at h
    refine ⟨0, Nat.zero_le _, ?_⟩
    simp [findSub, hpat]
  | cons c rest ih =>
    intro i h
    by_cases hp : pat.isPrefixOf (c :: rest) = true
    · exact ⟨0, Nat.zero_le _, by simp [findSub, hp]⟩
    · match i with
      | 0 => exact absurd (by simpa using h) hp
      | i + 1 =>
        rcases ih i (by simpa using h) with ⟨n, hn, hfind⟩
        refine ⟨n + 1, by omega, ?_⟩
        simp [findSub, hp, hfind]

theorem find_sound (pat content : List Char) (start n : Nat)
    (h : find pat content start = some n) :
    start ≤ n ∧ occursAt pat content n = true ∧
      ∀ m, start ≤ m → m < n → occursAt pat content m = false := by
  rcases Option.map_eq_some'.mp h with ⟨k, hk, rfl⟩
  refine ⟨Nat.le_add_left _ _, ?_, ?_⟩
  · have hs := findSub_sound pat (content.drop start) k hk
    rw [List.drop_drop] at hs
    have heq : start + k = k + start := Nat.add_comm _ _
    rw [heq] at hs
    exact hs
  · intro m hsm hmn
    have hj : m - start < k := by omega
    have hm := findSub_minimal pat (content.drop start) k hk (m - start) hj
    rw [List.drop_drop] at hm
    have hms : start + (m - start) = m := by omega
    rw [hms] at hm
    exact hm

theorem find_complete (pat content : List Char) (start i : Nat)
    (hi : start ≤ i) (h : occursAt pat content i = true) :
    ∃ n, start ≤ n ∧ n ≤ i ∧ find pat content start = some n := by
  have hdrop : pat.isPrefixOf ((content.drop start).drop (i - start)) = true := by
    rw [List.drop_drop]
    have hsi : start + (i - start) = i := by omega
    rwa [hsi]
  rcases findSub_complete pat (content.drop start) (i - start) hdrop with ⟨n, hn, hfind⟩
  refine ⟨n + start, Nat.le_add_left _ _, by omega, ?_⟩
  simp [find, hfind]

theorem find_none (pat content : List Char) (start : Nat)
    (h : ∀ i, start ≤ i → occursAt pat content i = false) :
    find pat content start = none := by
  cases hf : find pat content start with
  | none => rfl
  | some n =>
    rcases find_sound pat content start n hf with ⟨hsn, hocc, _⟩
    rw [h n hsn] at hocc
    cases hocc

theorem isPrefixOf_append_right (p : List Char) :
    ∀ (l₁ : List Char), p.isPrefixOf l₁ = true →
      ∀ l₂ : List Char, p.isPrefixOf (l₁ ++ l₂) = true := by
  induction p with
  | nil => intro l₁ _ l₂; cases l₁ ++ l₂ <;> rfl
  | cons a as ih =>
    intro l₁ h l₂
    cases l₁ with
    | nil => simp [List.isPrefixOf] at h
    | cons b bs =>
      simp only [List.isPrefixOf, Bool.and_eq_true] at h ⊢
      exact ⟨h.1, ih bs h.2 l₂⟩

theorem take_of_isPrefixOf (p : List Char) :
    ∀ l : List Char, p.isPrefixOf l = true → l.take p.length = p := by
  induction p with
  | nil => intro l _; rfl
  | cons a as ih =>
    intro l h
    cases l with
    | nil => simp [List.isPrefixOf] at h
    | cons b bs =>
      simp only [List.isPrefixOf, Bool.and_eq_true, beq_iff_eq] at h
      simp only [List.length_cons, List.take_succ_cons]
      rw [h.1, ih bs h.2]

theorem occursAt_append (p pre mid suf : List Char) (i : Nat)
    (h : occursAt p mid i = true) :
    occursAt p (pre ++ mid ++ suf) (pre.length + i) = true := by
  unfold occursAt at h ⊢
  rw [List.append_assoc, List.drop_append_eq_append_drop,
    List.drop_eq_nil_of_le (by omega), List.nil_append]
  have hii : pre.length + i - pre.length = i := by omega
  rw [hii, List.drop_append_eq_append_drop]
  exact isPrefixOf_append_right p _ h _

theorem runEditor_run (content : List Char) (s e c : Nat)
    (h1 : find old_start content 0 = some s)
    (h2 : find old_end_marker content s = some e)
    (h3 : find closingDelim content e = some c) :
    runEditor content =
      some ((content.drop s).take (c + 2 - s),
            content.take s ++ new_section ++ content.drop (c + 2)) := by
  simp only [runEditor, h1, h2, h3, closingDelim_length]

theorem runEditor_some_inv (content oldSec newC : List Char)
    (h : runEditor content = some (oldSec, newC)) :
    ∃ s e c, find old_start content 0 = some s ∧
      find old_end_marker content s = some e ∧
      find closingDelim content e = some c ∧
      oldSec = (content.drop s).take (c + 2 - s) ∧
      newC = content.take s ++ new_section ++ content.drop (c + 2) := by
  unfold runEditor at h
  split at h
  · cases h
  next s h1 =>
    split at h
    · cases h
    next e h2 =>
      split at h
      · cases h
      next c h3 =>
        rw [closingDelim_length] at h
        simp only [Option.some.injEq, Prod.mk.injEq] at h
        exact ⟨s, e, c, h1, h2, h3, h.1.symm, h.2.symm⟩

theorem isPrefixOf_length_le (p : List Char) :
    ∀ l : List Char, p.isPrefixOf l = true → p.length ≤ l.length := by
  induction p with
  | nil => intro l _; simp
  | cons a as ih =>
    intro l h
    cases l with
    | nil => simp [List.isPrefixOf] at h
    | cons b bs =>
      simp only [List.isPrefixOf, Bool.and_eq_true] at h
      have := ih bs h.2
      simp only [List.length_cons]
      omega

theorem occursAt_le (p l : List Char) (i : Nat) (hp : p ≠ [])
    (h : occursAt p l i = true) : i + p.length ≤ l.length := by
  have hle := isPrefixOf_length_le p (l.drop i) h
  rw [List.length_drop] at hle
  have hpos : 0 < p.length := List.length_pos.mpr hp
  omega

theorem find_spec (pat content : List Char) (start i : Nat) (hsi : start ≤ i)
    (hocc : occursAt pat content i = true)
    (hmin : ∀ m, start ≤ m → m < i → occursAt pat content m = false) :
    find pat content start = some i := by
  rcases find_complete pat content start i hsi hocc with ⟨n, hsn, hni, hfind⟩
  rcases Nat.lt_or_ge n i with hlt | hge
  · have := (find_sound pat content start n hfind).2.1
    rw [hmin n hsn hlt] at this
    cases this
  · have : n = i := by omega
    rwa [this] at hfind

theorem old_start_length : old_start.length = 36 := by decide

theorem old_start_ne_nil : old_start ≠ [] := by decide

theorem closingDelim_ne_nil : closingDelim ≠ [] := by decide

theorem new_section_length : new_section.length = 2433 := by
  simp [new_section]

theorem cex1_length : cex1.length = 2439 := by
  simp [cex1, cex, new_section]

theorem ns_anchor1 : occursAt old_start new_section 123 = true := by decide

theorem ns_anchor2 : occursAt old_end_marker new_section 1944 = true := by
  decide

theorem ns_anchor3 : occursAt closingDelim new_section 1993 = true := by
  decide

theorem cex1_occ1 : occursAt old_start cex1 125 = true := by decide

theorem cex1_occ2 : occursAt old_end_marker cex1 1946 = true := by decide

theorem cex1_occ3 : occursAt closingDelim cex1 1995 = true := by decide

theorem runEditor_cex : runEditor cex = some (cexOld, cex1) := by
  have h := runEditor_run cex 2 41 88 (by decide) (by decide) (by decide)
  simpa [cexOld, cex1] using h

theorem take_length_of_occursAt (content : List Char) (s : Nat)
    (h : occursAt old_start content s = true) :
    (content.take s).length = s := by
  have hle := occursAt_le old_start content s old_start_ne_nil h
  rw [old_start_length] at hle
  rw [List.length_take]
  omega

/-- Claim C1: for every source text containing the start marker, the end
marker at or after it, and the closing delimiter at or after that, the run
produces new full text `prefix ++ new_section ++ suffix`, where the prefix
is the text before the start-marker position and the suffix is the text
after the position immediately following the matched closing delimiter,
and this new text is what is written back to the file. -/
theorem claim1_splice (content : List Char) (s e c : Nat)
    (h1 : find old_start content 0 = some s)
    (h2 : find old_end_marker content s = some e)
    (h3 : find closingDelim content e = some c) :
    runEditor content =
      some ((content.drop s).take (c + 2 - s),
            content.take s ++ new_section ++ content.drop (c + 2)) ∧
    Event.fileWrite filepath
        (content.take s ++ new_section ++ content.drop (c + 2)) ∈
      runEvents content := by
  have h := runEditor_run content s e c h1 h2 h3
  refine ⟨h, ?_⟩
  simp [runEvents, h]

/-- Witness for C1 on the sample text `cex`. -/
theorem claim1_splice_witness :
    runEditor cex =
      some ((cex.drop 2).take (88 + 2 - 2),
            cex.take 2 ++ new_section ++ cex.drop (88 + 2)) ∧
    Event.fileWrite filepath (cex.take 2 ++ new_section ++ cex.drop (88 + 2)) ∈
      runEvents cex :=
  claim1_splice cex 2 41 88 (by decide) (by decide) (by decide)

/-- Claim C2: when the start marker is absent, or the end marker is absent
at or after the start-marker position, or the closing delimiter is absent
at or after the end-marker position, the run fails and nothing is printed
or written, leaving the file on disk unchanged. -/
theorem claim2_fail (content : List Char)
    (h : (∀ i, occursAt old_start content i = false) ∨
      (∃ s, find old_start content 0 = some s ∧
        ∀ i, s ≤ i → occursAt old_end_marker content i = false) ∨
      (∃ s e, find old_start content 0 = some s ∧
        find old_end_marker content s = some e ∧
        ∀ i, e ≤ i → occursAt closingDelim content i = false)) :
    runEditor content = none ∧ runEvents content = [] := by
  have hnone : runEditor content = none := by
    rcases h with h1 | ⟨s, hs, h2⟩ | ⟨s, e, hs, he, h3⟩
    · have hf : find old_start content 0 = none :=
        find_none _ _ _ fun i _ => h1 i
      simp [runEditor, hf]
    · have hf : find old_end_marker content s = none := find_none _ _ _ h2
      simp [runEditor, hs, hf]
    · have hf : find closingDelim content e = none := find_none _ _ _ h3
      simp [runEditor, hs, he, hf]
  exact ⟨hnone, by simp [runEvents, hnone]⟩

/-- Witness for C2 on the empty file content. -/
theorem claim2_fail_witness : runEditor [] = none ∧ runEvents [] = [] :=
  claim2_fail []
    (Or.inl fun i => by
      unfold occursAt
      rw [List.drop_nil]
      decide)

/-- Counterexample to C3: on the sample text `cex` the first run succeeds
and writes `cex1`; a second run on `cex1` does not fail and does not
no-op, it succeeds and produces content different from `cex1`. -/
theorem claim3_counterexample :
    runEditor cex = some (cexOld, cex1) ∧
    (runEditor cex1).isSome = true ∧
    (runEditor cex1).map Prod.snd ≠ some cex1 := by
  obtain ⟨s2, -, hs2le, hfs2⟩ :=
    find_complete old_start cex1 0 125 (Nat.zero_le _) cex1_occ1
  obtain ⟨e2, -, he2le, hfe2⟩ :=
    find_complete old_end_marker cex1 s2 1946 (by omega) cex1_occ2
  obtain ⟨c2, -, hc2le, hfc2⟩ :=
    find_complete closingDelim cex1 e2 1995 (by omega) cex1_occ3
  have hrun2 := runEditor_run cex1 s2 e2 c2 hfs2 hfe2 hfc2
  refine ⟨runEditor_cex, by rw [hrun2]; rfl, ?_⟩
  rw [hrun2]
  simp only [Option.map_some', ne_eq, Option.some.injEq]
  intro heq
  have hlen := congrArg List.length heq
  rw [List.length_append, List.length_append, List.length_take,
    List.length_drop, cex1_length, new_section_length] at hlen
  have hocc_c := (find_sound closingDelim cex1 e2 c2 hfc2).2.1
  have hc2len := occursAt_le _ _ _ closingDelim_ne_nil hocc_c
  rw [cex1_length, closingDelim_length] at hc2len
  omega

/-- Claim C3 amended: re-running the editor against the already-modified
file does not fail: the replacement block reintroduces the start marker,
the end marker and the closing delimiter in the order the locator
expects, so the second run always succeeds (and, as the counterexample
shows, it can further mutate the file rather than no-op). -/
theorem claim3_second_run_succeeds (content oldSec newC : List Char)
    (h : runEditor content = some (oldSec, newC)) :
    ∃ p, runEditor newC = some p := by
  obtain ⟨s, e, c, h1, h2, h3, -, hnew⟩ :=
    runEditor_some_inv content oldSec newC h
  have hs_occ := (find_sound old_start content 0 s h1).2.1
  have hpre := take_length_of_occursAt content s hs_occ
  have ha := occursAt_append old_start (content.take s) new_section
    (content.drop (c + 2)) 123 ns_anchor1
  have hb := occursAt_append old_end_marker (content.take s) new_section
    (content.drop (c + 2)) 1944 ns_anchor2
  have hc := occursAt_append closingDelim (content.take s) new_section
    (content.drop (c + 2)) 1993 ns_anchor3
  rw [hpre, ← hnew] at ha hb hc
  obtain ⟨s2, -, hs2le, hfs2⟩ :=
    find_complete old_start newC 0 (s + 123) (Nat.zero_le _) ha
  obtain ⟨e2, -, he2le, hfe2⟩ :=
    find_complete old_end_marker newC s2 (s + 1944) (by omega) hb
  obtain ⟨c2, -, -, hfc2⟩ :=
    find_complete closingDelim newC e2 (s + 1993) (by omega) hc
  exact ⟨_, runEditor_run newC s2 e2 c2 hfs2 hfe2 hfc2⟩

/-- Witness for the amended C3: the second run on `cex1` succeeds. -/
theorem claim3_second_run_succeeds_witness : ∃ p, runEditor cex1 = some p :=
  claim3_second_run_succeeds cex cexOld cex1 runEditor_cex

/-- Claim C4: whenever the run succeeds, the located region starts at the
first occurrence of the start marker, the end marker is the first
occurrence at or after that position, the closing delimiter is the first
occurrence at or after the end marker, and the region ends immediately
after the closing delimiter. -/
theorem claim4_locator (content : List Char) (s e c : Nat)
    (h1 : find old_start content 0 = some s)
    (h2 : find old_end_marker content s = some e)
    (h3 : find closingDelim content e = some c) :
    (occursAt old_start content s = true ∧
      ∀ m, m < s → occursAt old_start content m = false) ∧
    (s ≤ e ∧ occursAt old_end_marker content e = true ∧
      ∀ m, s ≤ m → m < e → occursAt old_end_marker content m = false) ∧
    (e ≤ c ∧ occursAt closingDelim content c = true ∧
      ∀ m, e ≤ m → m < c → occursAt closingDelim content m = false) ∧
    runEditor content =
      some ((content.drop s).take (c + 2 - s),
            content.take s ++ new_section ++ content.drop (c + 2)) := by
  obtain ⟨-, hocc1, hmin1⟩ := find_sound old_start content 0 s h1
  obtain ⟨hse, hocc2, hmin2⟩ := find_sound old_end_marker content s e h2
  obtain ⟨hec, hocc3, hmin3⟩ := find_sound closingDelim content e c h3
  exact ⟨⟨hocc1, fun m hm => hmin1 m (Nat.zero_le _) hm⟩,
    ⟨hse, hocc2, hmin2⟩, ⟨hec, hocc3, hmin3⟩,
    runEditor_run content s e c h1 h2 h3⟩

/-- Witness for C4 on the sample text `cex`. -/
theorem claim4_locator_witness :
    (occursAt old_start cex 2 = true ∧
      ∀ m, m < 2 → occursAt old_start cex m = false) ∧
    (2 ≤ 41 ∧ occursAt old_end_marker cex 41 = true ∧
      ∀ m, 2 ≤ m → m < 41 → occursAt old_end_marker cex m = false) ∧
    (41 ≤ 88 ∧ occursAt closingDelim cex 88 = true ∧
      ∀ m, 41 ≤ m → m < 88 → occursAt closingDelim cex m = false) ∧
    runEditor cex =
      some ((cex.drop 2).take (88 + 2 - 2),
            cex.take 2 ++ new_section ++ cex.drop (88 + 2)) :=
  claim4_locator cex 2 41 88 (by decide) (by decide) (by decide)

/-- Claim C5: whenever the run succeeds, the printed old section is
exactly the substring of the original text from the start-marker position
to the end of the matched closing delimiter, and it is printed before the
file write happens in the event trace. -/
theorem claim5_old_section (content : List Char) (s e c : Nat)
    (h1 : find old_start content 0 = some s)
    (h2 : find old_end_marker content s = some e)
    (h3 : find closingDelim content e = some c) :
    runEvents content =
      [Event.printLine bannerOld,
       Event.printLine ((content.drop s).take (c + 2 - s)),
       Event.printLine bannerEnd,
       Event.fileWrite filepath
         (content.take s ++ new_section ++ content.drop (c + 2)),
       Event.printLine doneMsg] := by
  have h := runEditor_run content s e c h1 h2 h3
  simp [runEvents, h]

/-- Witness for C5 on the sample text `cex`. -/
theorem claim5_old_section_witness :
    runEvents cex =
      [Event.printLine bannerOld,
       Event.printLine ((cex.drop 2).take (88 + 2 - 2)),
       Event.printLine bannerEnd,
       Event.fileWrite filepath
         (cex.take 2 ++ new_section ++ cex.drop (88 + 2)),
       Event.printLine doneMsg] :=
  claim5_old_section cex 2 41 88 (by decide) (by decide) (by decide)

/-- Claim C6: on the spec's sample source text, which contains the start
marker at index 2 but lacks the end-marker literal, the run fails with a
marker-not-found error and nothing is printed or written. -/
theorem claim6_scenario :
    find old_start specContent 0 = some 2 ∧
    find old_end_marker specContent 2 = none ∧
    runEditor specContent = none ∧ runEvents specContent = [] := by
  refine ⟨by decide, by decide, by decide, ?_⟩
  have h : runEditor specContent = none := by decide
  simp [runEvents, h]

/-- Claim C7: the program consults no command-line arguments or
environment variables: for a fixed file content any two runs produce the
same event trace, and every file write targets the literal constant path
`src/services/news.service.ts`. -/
theorem claim7_no_args (argv1 argv2 : List (List Char))
    (env1 env2 : List (List Char × List Char)) (content : List Char) :
    runProgram argv1 env1 content = runProgram argv2 env2 content ∧
    writesOnlyTo filepath (runProgram argv1 env1 content) = true := by
  refine ⟨rfl, ?_⟩
  cases hre : runEditor content with
  | none => simp [runProgram, runEvents, writesOnlyTo, hre]
  | some p =>
    obtain ⟨o, n⟩ := p
    simp [runProgram, runEvents, writesOnlyTo, hre]

/-- Claim C8: when opening or reading the target file fails, the run
aborts before anything is printed or written, so the file is unchanged;
when the write call itself fails, the run aborts without printing the
final success message. -/
theorem claim8_fs_errors (content : List Char) (writeOk : Bool)
    (oldSec newC : List Char)
    (h : runEditor content = some (oldSec, newC)) :
    runFs none writeOk = [] ∧
    runFs (some content) false =
      [Event.printLine bannerOld, Event.printLine oldSec,
       Event.printLine bannerEnd, Event.fileWrite filepath newC] := by
  exact ⟨rfl, by simp [runFs, h]⟩

/-- Witness for C8 on the sample text `cex`. -/
theorem claim8_fs_errors_witness :
    runFs none false = [] ∧
    runFs (some cex) false =
      [Event.printLine bannerOld, Event.printLine cexOld,
       Event.printLine bannerEnd, Event.fileWrite filepath cex1] :=
  claim8_fs_errors cex false cexOld cex1 runEditor_cex

/-- Claim C9: whenever the run succeeds, the located region is non-empty
(its end `c + 2` is strictly greater than its start `s`) and the old
section, of full length `c + 2 - s`, ends with the closing delimiter. -/
theorem claim9_region (content : List Char) (s e c : Nat)
    (_h1 : find old_start content 0 = some s)
    (h2 : find old_end_marker content s = some e)
    (h3 : find closingDelim content e = some c) :
    s < c + 2 ∧
    ((content.drop s).take (c + 2 - s)).length = c + 2 - s ∧
    ((content.drop s).take (c + 2 - s)).drop (c - s) = closingDelim := by
  have h2s := (find_sound old_end_marker content s e h2).1
  obtain ⟨h3s, hocc, -⟩ := find_sound closingDelim content e c h3
  have hlen := occursAt_le _ _ _ closingDelim_ne_nil hocc
  rw [closingDelim_length] at hlen
  have hsc : s ≤ c := le_trans h2s h3s
  refine ⟨by omega, ?_, ?_⟩
  · rw [List.length_take, List.length_drop]
    omega
  · rw [List.drop_take, List.drop_drop]
    have hsum : s + (c - s) = c := by omega
    have hsub : c + 2 - s - (c - s) = 2 := by omega
    rw [hsum, hsub]
    have ht := take_of_isPrefixOf closingDelim (content.drop c) hocc
    rwa [closingDelim_length] at ht

/-- Witness for C9 on the sample text `cex`. -/
theorem claim9_region_witness :
    2 < 88 + 2 ∧
    ((cex.drop 2).take (88 + 2 - 2)).length = 88 + 2 - 2 ∧
    ((cex.drop 2).take (88 + 2 - 2)).drop (88 - 2) = closingDelim :=
  claim9_region cex 2 41 88 (by decide) (by decide) (by decide)

/-- Claim C10: the replacement block contains the start marker, the end
marker and a later closing delimiter in locator order, so the file
written by every successful run again contains the three anchors in the
order the locator requires. -/
theorem claim10_anchors (content oldSec newC : List Char)
    (h : runEditor content = some (oldSec, newC)) :
    occursAt old_start new_section 123 = true ∧
    occursAt old_end_marker new_section 1944 = true ∧
    occursAt closingDelim new_section 1993 = true ∧
    ∃ i j k, i < j ∧ j < k ∧
      occursAt old_start newC i = true ∧
      occursAt old_end_marker newC j = true ∧
      occursAt closingDelim newC k = true ∧
      Event.fileWrite filepath newC ∈ runEvents content := by
  obtain ⟨s, e, c, h1, h2, h3, -, hnew⟩ :=
    runEditor_some_inv content oldSec newC h
  have hs_occ := (find_sound old_start content 0 s h1).2.1
  have hpre := take_length_of_occursAt content s hs_occ
  have ha := occursAt_append old_start (content.take s) new_section
    (content.drop (c + 2)) 123 ns_anchor1
  have hb := occursAt_append old_end_marker (content.take s) new_section
    (content.drop (c + 2)) 1944 ns_anchor2
  have hc := occursAt_append closingDelim (content.take s) new_section
    (content.drop (c + 2)) 1993 ns_anchor3
  rw [hpre, ← hnew] at ha hb hc
  refine ⟨ns_anchor1, ns_anchor2, ns_anchor3,
    s + 123, s + 1944, s + 1993, by omega, by omega, ha, hb, hc, ?_⟩
  simp [runEvents, h]

/-- Witness for C10 on the sample text `cex`. -/
theorem claim10_anchors_witness :
    occursAt old_start new_section 123 = true ∧
    occursAt old_end_marker new_section 1944 = true ∧
    occursAt closingDelim new_section 1993 = true ∧
    ∃ i j k, i < j ∧ j < k ∧
      occursAt old_start cex1 i = true ∧
      occursAt old_end_marker cex1 j = true ∧
      occursAt closingDelim cex1 k = true ∧
      Event.fileWrite filepath cex1 ∈ runEvents cex :=
  claim10_anchors cex cexOld cex1 runEditor_cex

end UpdateFeeds
